import Mathlib

set_option linter.all false
set_option maxRecDepth 8000

/-
  Verification development for the cypher-chain ledger core.

  The Python source (cypher/transaction.py, cypher-chain/cypher/{utils,block,
  blockchain}.py) is rendered as a shallow embedding: pure functions become
  Lean functions, methods that mutate the Blockchain object become explicit
  state passing over `BState`, Python exceptions become `Except`/`Option`
  results. Imperative loops become structural recursions whose list argument
  is the loop variable.

  External library calls (hashlib.sha256, ripemd160, the ecdsa package) are
  parameters gathered in the `Crypto` structure: every theorem is proved for
  an arbitrary instantiation. The constants DIFFICULTY, BLOCK_REWARD and
  GENESIS_MESSAGE come from a config module that only exists as an import in
  the source tree, so they are ordinary parameters (D, R, genesisMsg) here.

  Modelling conventions, each noted again at its definition:
  - Python `bytes` are `List Nat`; `str.encode()` is codepoint lists (the JSON
    strings produced here are ASCII).
  - Python `float` timestamps are opaque `Int` values: no ledger check depends
    on the numeric value, only on its appearance inside hash preimages.
  - Python dicts are association lists preserving insertion order, with
    dict-update keeping the position of an existing key.
  - `json.dumps(obj, sort_keys=True, separators=(",", ":"))` is rendered by
    direct string builders for the fixed dict shapes the source serializes,
    with keys emitted in sorted order exactly as json.dumps would.
-/

-- ## Bytes and hex (Python bytes.fromhex / bytes.hex)

-- A byte string is a list of byte values.  str.encode() for the ASCII JSON
-- strings built below is the list of codepoints.
def strBytes (s : String) : List Nat := s.toList.map Char.toNat

def hexVal (c : Char) : Nat :=
  if 48 ≤ c.toNat ∧ c.toNat ≤ 57 then c.toNat - 48
  else if 97 ≤ c.toNat ∧ c.toNat ≤ 102 then c.toNat - 87
  else if 65 ≤ c.toNat ∧ c.toNat ≤ 70 then c.toNat - 55
  else 0

def hexPairsToBytes : List Char → List Nat
  | c1 :: c2 :: rest => (16 * hexVal c1 + hexVal c2) :: hexPairsToBytes rest
  | _ => []

-- bytes.fromhex.  Totalized: invalid hex characters decode as 0 where Python
-- raises ValueError; no claim below exercises invalid-hex preimages.
def hexToBytes (s : String) : List Nat := hexPairsToBytes s.toList

def hexDigit (n : Nat) : Char :=
  if n < 10 then Char.ofNat (48 + n) else Char.ofNat (87 + n)

-- bytes.hex: two lowercase hex characters per byte.
def bytesToHex (bs : List Nat) : String :=
  String.mk (bs.foldr (fun b acc => hexDigit (b / 16 % 16) :: hexDigit (b % 16) :: acc) [])

-- ## Abstract cryptographic primitives (external libraries)

-- The hashlib / ecdsa library calls the source makes.  `ecdsaVerify` models
-- `VerifyingKey.from_string(...)` followed by `vk.verify(sig, msg)`, with any
-- exception of that pair (malformed key, BadSignatureError) collapsed to
-- `false` — in every call site of `verify` those exceptions are caught and
-- turned into a `False` return.  `pubOf` models
-- `SigningKey.from_string(priv).get_verifying_key().to_string().hex()`.
structure Crypto where
  sha256 : List Nat → List Nat
  ripemd160 : List Nat → List Nat
  ecdsaVerify : String → String → List Nat → Bool
  ecdsaSign : String → List Nat → String
  pubOf : String → String

-- utils.sha256d_hex
def sha256d_hex (C : Crypto) (data : List Nat) : String :=
  bytesToHex (C.sha256 (C.sha256 data))

-- transaction.pubkey_to_address
def pubkey_to_address (C : Crypto) (pubkey_hex : String) : String :=
  "CYPH" ++ bytesToHex (C.ripemd160 (C.sha256 (hexToBytes pubkey_hex)))

-- ## Transaction data model (transaction.py)

structure TxInput where
  txid : String
  vout : Nat
  signature : Option String := none
  pubkey : Option String := none
deriving DecidableEq

structure TxOutput where
  amount : Nat
  address : String
deriving DecidableEq

structure Transaction where
  inputs : List TxInput
  outputs : List TxOutput
  timestamp : Int
  txid : Option String := none
  coinbase : Bool := false
deriving DecidableEq

-- UTXO keys are (txid, vout).  The txid slot is `Option String` because the
-- ledger keys freshly-applied outputs by `tx.txid`, an optional field.
abbrev UtxoKey := Option String × Nat
abbrev UtxoSet := List (UtxoKey × TxOutput)

-- Python `ref in utxo_map` / `utxo_map[ref]`.
def lookupU : UtxoSet → UtxoKey → Option TxOutput
  | [], _ => none
  | (k, v) :: rest, key => if k = key then some v else lookupU rest key

-- Python `del utxo_map[ref]` (keys are unique in every dict the source builds).
def deleteU (m : UtxoSet) (key : UtxoKey) : UtxoSet :=
  m.filter (fun kv => kv.1 ≠ key)

-- Python `utxo_map[key] = v`: update in place if the key exists (keeping its
-- position), else append.
def insertU (m : UtxoSet) (key : UtxoKey) (v : TxOutput) : UtxoSet :=
  if (lookupU m key).isSome then
    m.map (fun kv => if kv.1 = key then (key, v) else kv)
  else m ++ [(key, v)]

-- ## Canonical JSON encoding (utils.to_json over the shapes the source hashes)

-- json.dumps(..., sort_keys=True, separators=(",",":")) for the fixed dict
-- shapes below.  String values the source produces (hex digests, addresses)
-- contain no characters needing JSON escapes, so quoting is plain.
def jstr (s : String) : String := "\"" ++ s ++ "\""

def jopt : Option String → String
  | none => "null"
  | some s => jstr s

def jbool (b : Bool) : String := if b then "true" else "false"

-- TxInput.to_dict: keys in sorted order.  With signatures the key order is
-- pubkey, signature, txid, vout; without, txid, vout.
def inputJson (include_sig : Bool) (i : TxInput) : String :=
  if include_sig then
    "\x7b" ++ jstr "pubkey" ++ ":" ++ jopt i.pubkey ++ "," ++
      jstr "signature" ++ ":" ++ jopt i.signature ++ "," ++
      jstr "txid" ++ ":" ++ jstr i.txid ++ "," ++
      jstr "vout" ++ ":" ++ toString i.vout ++ "\x7d"
  else
    "\x7b" ++ jstr "txid" ++ ":" ++ jstr i.txid ++ "," ++
      jstr "vout" ++ ":" ++ toString i.vout ++ "\x7d"

-- TxOutput.to_dict: keys address, amount in sorted order.
def outputJson (o : TxOutput) : String :=
  "\x7b" ++ jstr "address" ++ ":" ++ jstr o.address ++ "," ++
    jstr "amount" ++ ":" ++ toString o.amount ++ "\x7d"

-- Transaction.to_dict rendered by to_json: keys coinbase, inputs, outputs,
-- timestamp in sorted order.  The timestamp is the opaque Int serialization.
def txJson (include_sig : Bool) (tx : Transaction) : String :=
  "\x7b" ++ jstr "coinbase" ++ ":" ++ jbool tx.coinbase ++ "," ++
    jstr "inputs" ++ ":" ++
      "[" ++ String.intercalate "," (tx.inputs.map (inputJson include_sig)) ++ "]" ++ "," ++
    jstr "outputs" ++ ":" ++
      "[" ++ String.intercalate "," (tx.outputs.map outputJson) ++ "]" ++ "," ++
    jstr "timestamp" ++ ":" ++ toString tx.timestamp ++ "\x7d"

-- Transaction.compute_txid: double hash of the signature-stripped preimage.
def Transaction.compute_txid (C : Crypto) (tx : Transaction) : String :=
  sha256d_hex C (strBytes (txJson false tx))

def totalOutputs (tx : Transaction) : Nat :=
  (tx.outputs.map TxOutput.amount).sum

-- ## Transaction.verify (transaction.py lines 79-107)

-- The input loop.  The accumulator is Python's `total_in`; a `none` result is
-- an early `return False`.  Checks appear in source order: UTXO presence,
-- amount accumulation, signature/pubkey presence (Python truthiness: None or
-- "" both fail `if not tin.signature or not tin.pubkey`), signature validity
-- (exceptions folded into `ecdsaVerify = false`), then address match.
def verifyInputsLoop (C : Crypto) (utxo_map : UtxoSet) (preimage : List Nat) :
    List TxInput → Nat → Option Nat
  | [], total_in => some total_in
  | tin :: rest, total_in =>
    match lookupU utxo_map (some tin.txid, tin.vout) with
    | none => none
    | some utxo =>
      if tin.signature.getD "" = "" ∨ tin.pubkey.getD "" = "" then none
      else if C.ecdsaVerify (tin.pubkey.getD "") (tin.signature.getD "") preimage = false then none
      else if pubkey_to_address C (tin.pubkey.getD "") ≠ utxo.address then none
      else verifyInputsLoop C utxo_map preimage rest (total_in + utxo.amount)

-- Transaction.verify.  Total by construction: the source wraps the body in
-- try/except returning False, so no exception escapes; the model reflects the
-- caught exceptions inside `ecdsaVerify`.
def Transaction.verify (C : Crypto) (tx : Transaction) (utxo_map : UtxoSet) : Bool :=
  if tx.coinbase then true
  else
    match verifyInputsLoop C utxo_map (strBytes (txJson false tx)) tx.inputs 0 with
    | none => false
    | some total_in =>
      if total_in < totalOutputs tx then false
      else decide (tx.txid = some (tx.compute_txid C))

-- transaction.make_coinbase.  The timestamp argument models time.time().
def make_coinbase (C : Crypto) (ts : Int) (to_address : String) (amount : Nat) : Transaction :=
  let tx : Transaction :=
    { inputs := [], outputs := [{ amount := amount, address := to_address }],
      timestamp := ts, txid := none, coinbase := true }
  { tx with txid := some (tx.compute_txid C) }

-- ## Merkle root (utils.merkle_root_hex, lines 17-28)

-- One pass of the inner `for i in range(0, len(level), 2)` loop: pair adjacent
-- elements, the lone final element of an odd level paired with itself.
def merkleLevel (C : Crypto) : List String → List String
  | [] => []
  | [a] => [sha256d_hex C (hexToBytes a ++ hexToBytes a)]
  | a :: b :: rest => sha256d_hex C (hexToBytes a ++ hexToBytes b) :: merkleLevel C rest

theorem merkleLevel_length (C : Crypto) : ∀ l : List String,
    (merkleLevel C l).length = (l.length + 1) / 2
  | [] => rfl
  | [_] => by simp [merkleLevel]
  | _ :: _ :: rest => by
    simp only [merkleLevel, List.length_cons, merkleLevel_length C rest]
    omega

-- The `while len(level) > 1` loop; the list argument is the loop variable.
-- Structured with an explicit recursion bound so that the definition reduces
-- by iota; `level.length` rounds always suffice because each pass at least
-- halves the level (see `merkleRoundsGo_congr`), so `merkleRounds` computes
-- exactly the source loop.
def merkleRoundsGo (C : Crypto) : Nat → List String → List String
  | 0, level => level
  | bound + 1, level =>
    if level.length ≤ 1 then level
    else merkleRoundsGo C bound (merkleLevel C level)

def merkleRounds (C : Crypto) (level : List String) : List String :=
  merkleRoundsGo C level.length level

theorem merkleRoundsGo_congr (C : Crypto) :
    ∀ (f1 : Nat) (l : List String) (f2 : Nat), l.length ≤ f1 → l.length ≤ f2 →
      merkleRoundsGo C f1 l = merkleRoundsGo C f2 l
  | 0, l, f2 => by
    intro h1 h2
    have hl : l = [] := List.eq_nil_of_length_eq_zero (by omega)
    subst hl
    cases f2 with
    | zero => rfl
    | succ f2 => simp [merkleRoundsGo]
  | f1 + 1, l, f2 => by
    intro h1 h2
    cases f2 with
    | zero =>
      have hl : l = [] := List.eq_nil_of_length_eq_zero (by omega)
      subst hl
      simp [merkleRoundsGo]
    | succ f2 =>
      rw [merkleRoundsGo, merkleRoundsGo]
      by_cases hlen : l.length ≤ 1
      · rw [if_pos hlen, if_pos hlen]
      · rw [if_neg hlen, if_neg hlen]
        have hlev := merkleLevel_length C l
        exact merkleRoundsGo_congr C f1 (merkleLevel C l) f2 (by omega) (by omega)

def merkle_root_hex (C : Crypto) (txids : List String) : String :=
  if txids = [] then sha256d_hex C []
  else (merkleRounds C txids).headI

-- ## Block model (block.py)

structure Block where
  index : Nat
  prev_hash : String
  timestamp : Int
  nonce : Nat := 0
  txs : List Transaction := []
  merkle_root : Option String := none
  hash : Option String := none
deriving DecidableEq

-- Block.compute_merkle.  The source passes the raw `tx.txid` values; a None
-- txid would raise inside bytes.fromhex — modeled as the "" decode (claims
-- below never reach a None txid in a hashed block).
def Block.compute_merkle (C : Crypto) (b : Block) : String :=
  merkle_root_hex C (b.txs.map (fun t => t.txid.getD ""))

-- Block.header_preimage: to_json of the header dict, keys index, merkle_root,
-- nonce, prev_hash, timestamp in sorted order; `self.merkle_root or ""` maps
-- None to "".
def headerJson (b : Block) : String :=
  "\x7b" ++ jstr "index" ++ ":" ++ toString b.index ++ "," ++
    jstr "merkle_root" ++ ":" ++ jstr (b.merkle_root.getD "") ++ "," ++
    jstr "nonce" ++ ":" ++ toString b.nonce ++ "," ++
    jstr "prev_hash" ++ ":" ++ jstr b.prev_hash ++ "," ++
    jstr "timestamp" ++ ":" ++ toString b.timestamp ++ "\x7d"

def Block.compute_hash (C : Crypto) (b : Block) : String :=
  sha256d_hex C (strBytes (headerJson b))

def zeroStr (D : Nat) : String := String.mk (List.replicate D '0')

-- Python str.startswith, over the character lists of the two strings.
def charsStart : List Char → List Char → Bool
  | _, [] => true
  | [], _ :: _ => false
  | c :: cs, p :: ps => c = p && charsStart cs ps

def strStarts (s p : String) : Bool := charsStart s.toList p.toList

-- block.mine_block's unbounded `while True` search, rendered with explicit
-- fuel (the search has no bound in the source; every theorem below that
-- involves mining either holds for all fuel or picks fuel at difficulty 0,
-- where the first attempt succeeds).  The cosmetic 100000-attempt timestamp
-- refresh is not modeled.
def mineBlockGo (C : Crypto) (D : Nat) : Nat → Block → Option Block
  | 0, _ => none
  | fuel + 1, b =>
    let h := b.compute_hash C
    if strStarts h (zeroStr D) then some { b with hash := some h }
    else mineBlockGo C D fuel { b with nonce := b.nonce + 1 }

-- block.mine_block: set merkle_root, reset nonce, then search.
def mine_block (C : Crypto) (D : Nat) (fuel : Nat) (b : Block) : Option Block :=
  mineBlockGo C D fuel { b with merkle_root := some (b.compute_merkle C), nonce := 0 }

-- ## Signing and transfer construction (transaction.py lines 56-77, 114-133)

inductive TxBuildErr
  | insufficientFunds
  | utxoNotFound
  | notOwned
deriving DecidableEq

-- The ownership loop of sign_inputs: ValueError "Referenced UTXO not found" /
-- "Attempting to spend UTXO not owned by provided key" become distinct errors.
def signCheckLoop (from_addr : String) (utxo_map : UtxoSet) :
    List TxInput → Except TxBuildErr Unit
  | [] => .ok ()
  | tin :: rest =>
    match lookupU utxo_map (some tin.txid, tin.vout) with
    | none => .error .utxoNotFound
    | some utxo =>
      if utxo.address ≠ from_addr then .error .notOwned
      else signCheckLoop from_addr utxo_map rest

-- The per-input assignment loop of sign_inputs: every input receives the
-- same deterministic signature over the stripped preimage and the same
-- public key.
def signedInputs (C : Crypto) (priv_hex : String) (tx : Transaction) : List TxInput :=
  tx.inputs.map (fun tin =>
    { tin with
        signature := some (C.ecdsaSign priv_hex (strBytes (txJson false tx)))
        pubkey := some (C.pubOf priv_hex) })

-- Transaction.sign_inputs.  The public key is derived from the private key
-- (the source never takes a separate public key here); one deterministic
-- signature is assigned to every input; the txid is set afterward from the
-- signature-stripped preimage.  The source's local variables (pub_hex,
-- from_addr, sig) are inlined; ecdsaSign is a function, so recomputation
-- equals the source's single computation.
def Transaction.sign_inputs (C : Crypto) (tx : Transaction) (priv_hex : String)
    (utxo_map : UtxoSet) : Except TxBuildErr Transaction :=
  if tx.coinbase then .ok { tx with txid := some (tx.compute_txid C) }
  else
    match signCheckLoop (pubkey_to_address C (C.pubOf priv_hex)) utxo_map tx.inputs with
    | .error e => .error e
    | .ok _ =>
      .ok { tx with
              inputs := signedInputs C priv_hex tx
              txid := some (Transaction.compute_txid C
                { tx with inputs := signedInputs C priv_hex tx }) }

-- The input-collection loop of build_simple_tx: append the input, accumulate
-- its amount, then break as soon as the running total covers the request.
-- A None txid key contributes the "" decode (unreachable for owner UTXOs).
def collectLoop (amount : Nat) : List (UtxoKey × TxOutput) → Nat → List TxInput →
    Nat × List TxInput
  | [], total, ins => (total, ins)
  | (k, out) :: rest, total, ins =>
    let ins := ins ++ [{ txid := k.1.getD "", vout := k.2 }]
    let total := total + out.amount
    if amount ≤ total then (total, ins)
    else collectLoop amount rest total ins

-- The `available` filter of build_simple_tx: the owner's UTXOs in iteration
-- order.
def ownerUtxos (C : Crypto) (utxos : UtxoSet) (pub : String) : UtxoSet :=
  utxos.filter (fun kv => kv.2.address = pubkey_to_address C pub)

-- transaction.build_simple_tx.  `change_addr or owner_addr` maps both None
-- and "" to the owner's address (Python truthiness).  The source's local
-- variables (owner_addr, available, total, ins, change, outputs) are inlined
-- as the pure expressions they bind; collectLoop is pure, so its repeated
-- projection equals the source's single destructuring assignment.
def build_simple_tx (C : Crypto) (ts : Int) (utxos : UtxoSet)
    (from_priv_hex from_pub_hex to_addr : String) (amount : Nat)
    (change_addr : Option String) : Except TxBuildErr Transaction :=
  if (collectLoop amount (ownerUtxos C utxos from_pub_hex) 0 []).1 < amount then
    .error .insufficientFunds
  else
    Transaction.sign_inputs C
      { inputs := (collectLoop amount (ownerUtxos C utxos from_pub_hex) 0 []).2,
        outputs := [({ amount := amount, address := to_addr } : TxOutput)] ++
          (if 0 < (collectLoop amount (ownerUtxos C utxos from_pub_hex) 0 []).1 - amount then
            [({ amount := (collectLoop amount (ownerUtxos C utxos from_pub_hex) 0 []).1 - amount,
                address := if change_addr.getD "" = "" then pubkey_to_address C from_pub_hex
                           else change_addr.getD "" } : TxOutput)]
           else []),
        timestamp := ts }
      from_priv_hex utxos

-- ## Ledger state (blockchain.py)

structure BState where
  chain : List Block
  utxos : UtxoSet
  mempool : List Transaction
deriving DecidableEq

inductive PyErr
  | keyError
  | indexError
deriving DecidableEq

-- `for idx, o in enumerate(tx.outputs): m[(tx.txid, idx)] = o`
def addOutputsGo (txid : Option String) : UtxoSet → Nat → List TxOutput → UtxoSet
  | u, _, [] => u
  | u, idx, o :: rest => addOutputsGo txid (insertU u (txid, idx) o) (idx + 1) rest

def addOutputs (u : UtxoSet) (tx : Transaction) : UtxoSet :=
  addOutputsGo tx.txid u 0 tx.outputs

-- The guarded deletion loop of validate_block's replay:
-- `if ref not in copy: return False` then `del copy[ref]`.
def delRefsChecked : UtxoSet → List TxInput → Option UtxoSet
  | u, [] => some u
  | u, i :: rest =>
    if (lookupU u (some i.txid, i.vout)).isSome then
      delRefsChecked (deleteU u (some i.txid, i.vout)) rest
    else none

-- The same loop inside apply_tx, which mutates self.utxos as it goes: on a
-- missing reference it returns False leaving the earlier deletions in place.
def delRefsPartial : UtxoSet → List TxInput → Bool × UtxoSet
  | u, [] => (true, u)
  | u, i :: rest =>
    if (lookupU u (some i.txid, i.vout)).isSome then
      delRefsPartial (deleteU u (some i.txid, i.vout)) rest
    else (false, u)

-- The unchecked deletion loop of mine's selection phase:
-- `del utxo_temp[(i.txid, i.vout)]` raises KeyError on an absent key.
def delRefsUnchecked : UtxoSet → List TxInput → Except PyErr UtxoSet
  | u, [] => .ok u
  | u, i :: rest =>
    if (lookupU u (some i.txid, i.vout)).isSome then
      delRefsUnchecked (deleteU u (some i.txid, i.vout)) rest
    else .error .keyError

-- Blockchain.apply_tx (lines 120-134), acting on the UTXO set it mutates.
def Blockchain.apply_tx (C : Crypto) (u : UtxoSet) (tx : Transaction) : Bool × UtxoSet :=
  if tx.coinbase then (true, addOutputs u tx)
  else if tx.verify C u = false then (false, u)
  else
    match delRefsPartial u tx.inputs with
    | (false, u') => (false, u')
    | (true, u') => (true, addOutputs u' tx)

-- The transaction-replay loop of validate_block (lines 150-165), acting on
-- the local `utxo_copy` and returning its final value on success.
def validateReplay (C : Crypto) : List Transaction → UtxoSet → Option UtxoSet
  | [], copy => some copy
  | tx :: rest, copy =>
    if tx.coinbase = false ∧ tx.verify C copy = false then none
    else if tx.coinbase then validateReplay C rest (addOutputs copy tx)
    else
      match delRefsChecked copy tx.inputs with
      | none => none
      | some copy' => validateReplay C rest (addOutputs copy' tx)

-- Blockchain.validate_block (lines 136-165).  The method reads the ledger
-- state and builds `utxo_copy = dict(self.utxos)`; the returned state renders
-- the method-call discipline (self is threaded, and the body never assigns to
-- it).  D is the configured DIFFICULTY, R the BLOCK_REWARD.
def Blockchain.validate_block (C : Crypto) (D R : Nat) (st : BState)
    (block prev : Block) : Bool × BState :=
  if ¬ (prev.hash = some block.prev_hash) then (false, st)
  else if block.hash.getD "" = "" then (false, st)
  else if strStarts (block.hash.getD "") (zeroStr D) = false then (false, st)
  else if ¬ (block.hash = some (block.compute_hash C)) then (false, st)
  else if ¬ (block.merkle_root = some (block.compute_merkle C)) then (false, st)
  else
    match block.txs with
    | [] => (false, st)
    | t0 :: _ =>
      if t0.coinbase = false then (false, st)
      else if ¬ (totalOutputs t0 = R) then (false, st)
      else
        match validateReplay C block.txs st.utxos with
        | none => (false, st)
        | some _ => (true, st)

-- `if not tx.txid: tx.txid = tx.compute_txid()` (None and "" are falsy).
def assignTxid (C : Crypto) (tx : Transaction) : Transaction :=
  if tx.txid.getD "" = "" then { tx with txid := some (tx.compute_txid C) } else tx

-- Blockchain.add_transaction (lines 103-118).  Persistence is a frame-level
-- effect over the same state and is modeled at the document layer below.
def Blockchain.add_transaction (C : Crypto) (st : BState) (tx : Transaction) :
    Bool × BState :=
  let tx := assignTxid C tx
  if tx.coinbase then (false, st)
  else if tx.verify C st.utxos = false then (false, st)
  else if st.mempool.any (fun t => t.txid = tx.txid) then (false, st)
  else if tx.inputs.any (fun i => st.mempool.any (fun t =>
          t.inputs.any (fun j => decide (j.txid = i.txid ∧ j.vout = i.vout)))) then (false, st)
  else (true, { st with mempool := st.mempool ++ [tx] })

-- The commit loop shared by mine and try_add_block:
-- `self.apply_tx(tx)` (result ignored) then prune the mempool of tx.txid.
def commitTxs (C : Crypto) : List Transaction → UtxoSet × List Transaction →
    UtxoSet × List Transaction
  | [], s => s
  | tx :: rest, (u, mp) =>
    let (_, u') := Blockchain.apply_tx C u tx
    commitTxs C rest (u', mp.filter (fun t => t.txid ≠ tx.txid))

-- The mempool-selection loop of Blockchain.mine (lines 171-177): verify each
-- pending transaction against the evolving temporary projection, delete its
-- references without a presence check, add its outputs.
def mineSelectLoop (C : Crypto) : List Transaction → List Transaction → UtxoSet →
    Except PyErr (List Transaction × UtxoSet)
  | [], selected, temp => .ok (selected, temp)
  | tx :: rest, selected, temp =>
    if tx.verify C temp then
      match delRefsUnchecked temp tx.inputs with
      | .error e => .error e
      | .ok temp' => mineSelectLoop C rest (selected ++ [tx]) (addOutputs temp' tx)
    else mineSelectLoop C rest selected temp

-- Blockchain.mine (lines 167-190).  ts1/ts2 model the two time.time() reads;
-- `self.latest_block()` on an empty chain raises IndexError.  A fuel-exhausted
-- proof-of-work search returns (none, st); no theorem relies on that branch.
def Blockchain.mine (C : Crypto) (D R : Nat) (fuel : Nat) (ts1 ts2 : Int)
    (st : BState) (miner_address : String) : Except PyErr (Option Block × BState) :=
  let coinbase := make_coinbase C ts1 miner_address R
  match mineSelectLoop C st.mempool [coinbase] st.utxos with
  | .error e => .error e
  | .ok (selected, _) =>
    match st.chain.getLast? with
    | none => .error .indexError
    | some tip =>
      let block : Block := { index := st.chain.length, prev_hash := tip.hash.getD "",
                             timestamp := ts2, txs := selected }
      match mine_block C D fuel block with
      | none => .ok (none, st)
      | some mined =>
        let (ok, st') := Blockchain.validate_block C D R st mined tip
        if ok then
          let (u, mp) := commitTxs C selected (st'.utxos, st'.mempool)
          .ok (some mined, { chain := st'.chain ++ [mined], utxos := u, mempool := mp })
        else .ok (none, st')

-- Blockchain.try_add_block (lines 192-202).
def Blockchain.try_add_block (C : Crypto) (D R : Nat) (st : BState) (block : Block) :
    Except PyErr (Bool × BState) :=
  if block.index ≠ st.chain.length then .ok (false, st)
  else
    match st.chain.getLast? with
    | none => .error .indexError
    | some tip =>
      let (ok, st') := Blockchain.validate_block C D R st block tip
      if ok = false then .ok (false, st')
      else
        let (u, mp) := commitTxs C block.txs (st'.utxos, st'.mempool)
        .ok (true, { chain := st'.chain ++ [block], utxos := u, mempool := mp })

-- Blockchain._init_genesis (lines 90-98): an inputless, outputless coinbase,
-- wrapped in block 0 carrying the GENESIS_MESSAGE sentinel, mined at D.
def Blockchain.init_genesis (C : Crypto) (D : Nat) (fuel : Nat) (ts1 ts2 : Int)
    (genesisMsg : String) : Option BState :=
  let gtx0 : Transaction := { inputs := [], outputs := [], timestamp := ts1, coinbase := true }
  let gtx := { gtx0 with txid := some (gtx0.compute_txid C) }
  let g : Block := { index := 0, prev_hash := genesisMsg, timestamp := ts2, txs := [gtx] }
  (mine_block C D fuel g).map (fun mined => { chain := [mined], utxos := [], mempool := [] })

-- Blockchain.balance (lines 204-205).
def Blockchain.balance (st : BState) (address : String) : Nat :=
  ((st.utxos.filter (fun kv => kv.2.address = address)).map (fun kv => kv.2.amount)).sum

-- ## Persistence shape (blockchain.py _persist lines 67-88, _load lines 30-65)

-- A persisted transaction: t.to_dict(include_sig=True) | {"txid": t.txid}.
-- The serialized inputs carry all four fields; on reload the source builds an
-- ad hoc attribute record (`type("TxInput", (), i)`) holding exactly those
-- four fields, rendered here as the same record type.
structure TxDoc where
  inputs : List TxInput
  outputs : List TxOutput
  timestamp : Int
  coinbase : Bool
  txid : Option String
deriving DecidableEq

structure BlockDoc where
  index : Nat
  prev_hash : String
  timestamp : Int
  nonce : Nat
  txs : List TxDoc
  merkle_root : Option String
  hash : Option String
deriving DecidableEq

-- The three documents, chain.json / utxos.json / mempool.json.  The mempool
-- document is optional on load (`os.path.exists`); _persist always writes it.
structure LedgerDocs where
  chainDoc : List BlockDoc
  utxoDoc : List (String × TxOutput)
  mempoolDoc : Option (List TxDoc)
deriving DecidableEq

def persistTx (t : Transaction) : TxDoc :=
  { inputs := t.inputs, outputs := t.outputs, timestamp := t.timestamp,
    coinbase := t.coinbase, txid := t.txid }

-- Transaction(..., coinbase=t.get("coinbase", False), txid=t.get("txid")):
-- both keys are always present in a persisted document.
def loadTx (d : TxDoc) : Transaction :=
  { inputs := d.inputs, outputs := d.outputs, timestamp := d.timestamp,
    coinbase := d.coinbase, txid := d.txid }

def persistBlock (b : Block) : BlockDoc :=
  { index := b.index, prev_hash := b.prev_hash, timestamp := b.timestamp,
    nonce := b.nonce, txs := b.txs.map persistTx, merkle_root := b.merkle_root,
    hash := b.hash }

def loadBlock (d : BlockDoc) : Block :=
  { index := d.index, prev_hash := d.prev_hash, timestamp := d.timestamp,
    nonce := d.nonce, txs := d.txs.map loadTx, merkle_root := d.merkle_root,
    hash := d.hash }

-- Decimal rendering of a Nat, least-significant digit first; `natToStr` is
-- the f-string's decimal rendering of the non-negative vout.  The recursion
-- bound makes the definition reduce by iota; `n` steps always suffice since
-- the value shrinks by a factor of ten each step (`natDigitsRevGo_congr`).
def natDigitsRevGo : Nat → Nat → List Char
  | 0, _ => []
  | bound + 1, n =>
    if n = 0 then [] else hexDigit (n % 10) :: natDigitsRevGo bound (n / 10)

def natDigitsRev (n : Nat) : List Char := natDigitsRevGo n n

theorem natDigitsRevGo_congr :
    ∀ (f1 n f2 : Nat), n ≤ f1 → n ≤ f2 → natDigitsRevGo f1 n = natDigitsRevGo f2 n
  | 0, n, f2 => by
    intro h1 h2
    have : n = 0 := by omega
    subst this
    cases f2 with
    | zero => rfl
    | succ f2 => simp [natDigitsRevGo]
  | f1 + 1, n, f2 => by
    intro h1 h2
    cases f2 with
    | zero =>
      have : n = 0 := by omega
      subst this
      simp [natDigitsRevGo]
    | succ f2 =>
      rw [natDigitsRevGo, natDigitsRevGo]
      by_cases hn : n = 0
      · rw [if_pos hn, if_pos hn]
      · rw [if_neg hn, if_neg hn]
        have hdiv : n / 10 < n := Nat.div_lt_self (by omega) (by omega)
        rw [natDigitsRevGo_congr f1 (n / 10) f2 (by omega) (by omega)]

theorem natDigitsRev_eq (n : Nat) :
    natDigitsRev n = if n = 0 then [] else hexDigit (n % 10) :: natDigitsRev (n / 10) := by
  by_cases hn : n = 0
  · rw [if_pos hn, hn]
    rfl
  · rw [if_neg hn]
    obtain ⟨m, rfl⟩ : ∃ m, n = m + 1 := ⟨n - 1, by omega⟩
    rw [natDigitsRev, natDigitsRev]
    rw [natDigitsRevGo, if_neg hn]
    have hdiv : (m + 1) / 10 ≤ m := by
      have := Nat.div_lt_self (Nat.succ_pos m) (by omega : (1 : Nat) < 10)
      omega
    rw [natDigitsRevGo_congr m ((m + 1) / 10) ((m + 1) / 10) hdiv (le_refl _)]

def natToStr (n : Nat) : String :=
  if n = 0 then "0" else String.mk (natDigitsRev n).reverse

def digitVal (c : Char) : Nat := c.toNat - 48

-- Python int(s): defined on a nonempty all-digit string, ValueError (None)
-- otherwise.
def pyIntChars (cs : List Char) : Option Nat :=
  if cs ≠ [] ∧ cs.all (fun c => decide (48 ≤ c.toNat ∧ c.toNat ≤ 57)) then
    some (cs.foldl (fun a c => 10 * a + digitVal c) 0)
  else none

-- Python k.split(":"): split on every colon; "".split(":") is [""].
def splitColon : List Char → List (List Char)
  | [] => [[]]
  | c :: rest =>
    let r := splitColon rest
    if c = ':' then [] :: r
    else (c :: r.headI) :: r.tail

-- f"{txid}:{vout}" — a None txid renders as the string "None".
def utxoKeyStr (k : UtxoKey) : String :=
  String.mk ((match k.1 with | some s => s | none => "None").toList ++
    ':' :: (natToStr k.2).toList)

-- (k.split(":")[0], int(k.split(":")[1])).  int() on a non-numeric part
-- raises in Python; totalized to 0 here — the round-trip theorem's hypothesis
-- keeps every key in the colon-free hex regime where the parse is exact.
def parseUtxoKey (k : String) : UtxoKey :=
  (some (String.mk (splitColon k.toList).headI),
   (pyIntChars ((splitColon k.toList).getD 1 [])).getD 0)

-- Blockchain._persist: each document rewritten in full.
def Blockchain.persist (st : BState) : LedgerDocs :=
  { chainDoc := st.chain.map persistBlock,
    utxoDoc := st.utxos.map (fun kv => (utxoKeyStr kv.1,
      ({ amount := kv.2.amount, address := kv.2.address } : TxOutput))),
    mempoolDoc := some (st.mempool.map persistTx) }

-- Blockchain._load: a missing mempool document loads as the empty mempool.
def Blockchain.load (docs : LedgerDocs) : BState :=
  { chain := docs.chainDoc.map loadBlock,
    utxos := docs.utxoDoc.map (fun kv => (parseUtxoKey kv.1, kv.2)),
    mempool := (docs.mempoolDoc.getD []).map loadTx }

-- ## A concrete crypto instantiation for witnesses

-- A small executable stand-in for the external hash/signature libraries,
-- used only to evaluate theorems at concrete inputs.  Its byte fold is
-- order-sensitive; its signature check accepts (a world where every stored
-- signature validates).
def C0 : Crypto :=
  { sha256 := fun l => [l.foldl (fun a b => (31 * a + b) % 256) 7],
    ripemd160 := fun l => l.map (fun b => (b + 3) % 256),
    ecdsaVerify := fun _ _ _ => true,
    ecdsaSign := fun _ _ => "ab",
    pubOf := fun s => s }

-- ## Specification-side predicates for the verify characterization

-- The per-input success condition of Transaction.verify, stated as a
-- predicate: the referenced UTXO exists, signature and public key are
-- non-empty, the signature validates over the stripped preimage, and the
-- address derived from the public key matches the referenced output.
def inputOk (C : Crypto) (u : UtxoSet) (pre : List Nat) (tin : TxInput) : Prop :=
  ∃ utxo, lookupU u (some tin.txid, tin.vout) = some utxo ∧
    tin.signature.getD "" ≠ "" ∧ tin.pubkey.getD "" ≠ "" ∧
    C.ecdsaVerify (tin.pubkey.getD "") (tin.signature.getD "") pre = true ∧
    pubkey_to_address C (tin.pubkey.getD "") = utxo.address

-- The amount an input reference contributes to total_in (0 for an absent
-- reference, a case excluded whenever `inputOk` holds).
def refAmount (u : UtxoSet) (tin : TxInput) : Nat :=
  (lookupU u (some tin.txid, tin.vout)).elim 0 TxOutput.amount

-- ## Concrete states used by witnesses

def u1w : UtxoSet := [((some "aa", 0), { amount := 10, address := pubkey_to_address C0 "bb" })]

def tx1wBase : Transaction :=
  { inputs := [{ txid := "aa", vout := 0, signature := some "ss", pubkey := some "bb" }],
    outputs := [{ amount := 5, address := "alice" }], timestamp := 0 }

def tx1w : Transaction := { tx1wBase with txid := some (tx1wBase.compute_txid C0) }

-- The genesis state produced at difficulty 0 (one unit of fuel suffices:
-- every hash starts with the empty prefix).
def gst : BState :=
  (Blockchain.init_genesis C0 0 1 0 0 "genesis").getD { chain := [], utxos := [], mempool := [] }

-- A ledger state holding the u1w UTXO set with an empty mempool.
def st3w : BState := { chain := [], utxos := u1w, mempool := [] }

-- The chain tip of the genesis state and a freshly mined successor block at
-- difficulty 0, used to exercise the external-block acceptance path.
def b4tip : Block := (gst.chain.getLast?).getD { index := 0, prev_hash := "", timestamp := 0 }

def b4cand : Block :=
  { index := 1
    prev_hash := b4tip.hash.getD ""
    timestamp := 0
    txs := [make_coinbase C0 0 "miner" 50] }

def b4ok : Block :=
  (mine_block C0 0 1 b4cand).getD { index := 0, prev_hash := "", timestamp := 0 }

def u4w : UtxoSet := (validateReplay C0 b4ok.txs gst.utxos).getD []

-- A transaction whose input list holds the same (txid, vout) reference twice,
-- spending a single 10-unit UTXO into a 15-unit output (the doubled
-- reference makes verify count 20 of input value).
def dupIn10 : TxInput := { txid := "aa", vout := 0, signature := some "cc", pubkey := some "bb" }

def u10 : UtxoSet := [((some "aa", 0), { amount := 10, address := pubkey_to_address C0 "bb" })]

def tx10base : Transaction :=
  { inputs := [dupIn10, dupIn10], outputs := [{ amount := 15, address := "alice" }],
    timestamp := 0 }

def tx10 : Transaction := { tx10base with txid := some (tx10base.compute_txid C0) }

def st10 : BState :=
  { chain := [{ index := 0, prev_hash := "g", timestamp := 0, hash := some "00" }],
    utxos := u10, mempool := [] }

-- ## Specification-side helpers for coin selection

-- Total amount of a UTXO list, the input reference an entry turns into when
-- selected, the (txid, vout) reference of an input, and the owner's view of
-- the UTXO set (the `available` local of build_simple_tx).
def sumA (l : List (UtxoKey × TxOutput)) : Nat := (l.map (fun kv => kv.2.amount)).sum

def mkIn (kv : UtxoKey × TxOutput) : TxInput := { txid := kv.1.1.getD "", vout := kv.1.2 }

def refOf (i : TxInput) : String × Nat := (i.txid, i.vout)

-- Two UTXOs owned by the key "pp" under C0, and the transfer of 9 units that
-- selects both and returns 4 units of change.
def u8w : UtxoSet :=
  [((some "t1", 0), { amount := 7, address := pubkey_to_address C0 "pp" }),
   ((some "t2", 1), { amount := 6, address := pubkey_to_address C0 "pp" })]

def tx8w : Transaction :=
  match build_simple_tx C0 0 u8w "pp" "pp" "bob" 9 none with
  | .ok t => t
  | .error _ => { inputs := [], outputs := [], timestamp := 0 }

-- A populated ledger state for the persistence round trip.
def st9w : BState := { chain := gst.chain, utxos := u1w, mempool := [tx1w] }

-- ## Merkle lemmas and claim C7

theorem merkleRounds_eq (C : Crypto) (l : List String) :
    merkleRounds C l = if l.length ≤ 1 then l else merkleRounds C (merkleLevel C l) := by
  by_cases h : l.length ≤ 1
  · rw [if_pos h, merkleRounds]
    cases hn : l.length with
    | zero => rfl
    | succ n => rw [merkleRoundsGo, if_pos h]
  · rw [if_neg h, merkleRounds, merkleRounds]
    cases hn : l.length with
    | zero => omega
    | succ n =>
      rw [merkleRoundsGo, if_neg h]
      have hlev := merkleLevel_length C l
      exact merkleRoundsGo_congr C n (merkleLevel C l) (merkleLevel C l).length
        (by omega) (le_refl _)

theorem merkleLevel_ne_nil (C : Crypto) (l : List String) (h : l ≠ []) :
    merkleLevel C l ≠ [] := by
  intro hnil
  have hlen := merkleLevel_length C l
  rw [hnil] at hlen
  have : l.length ≠ 0 := fun h0 => h (List.eq_nil_of_length_eq_zero h0)
  simp at hlen
  omega

/-- C7: `merkle_root_hex` of the empty list is the double hash of the empty
byte string; a singleton list is its own root; a pair hashes the concatenation
of the two byte decodings; every list of length at least two reduces to the
root of its one-level pairwise reduction (duplicating the final element of an
odd level inside `merkleLevel`); the result is deterministic; and it is
order-sensitive whenever the hash separates the two concatenation orders. -/
theorem c7_merkle_root (C : Crypto) :
    merkle_root_hex C [] = sha256d_hex C [] ∧
    (∀ a, merkle_root_hex C [a] = a) ∧
    (∀ a b, merkle_root_hex C [a, b] = sha256d_hex C (hexToBytes a ++ hexToBytes b)) ∧
    (∀ l, 2 ≤ l.length → merkle_root_hex C l = merkle_root_hex C (merkleLevel C l)) ∧
    (∀ l1 l2, l1 = l2 → merkle_root_hex C l1 = merkle_root_hex C l2) ∧
    (∀ a b,
      sha256d_hex C (hexToBytes a ++ hexToBytes b) ≠
        sha256d_hex C (hexToBytes b ++ hexToBytes a) →
      merkle_root_hex C [a, b] ≠ merkle_root_hex C [b, a]) := by
  have hsingle : ∀ a, merkle_root_hex C [a] = a := by
    intro a
    simp [merkle_root_hex, merkleRounds_eq]
  have hpair : ∀ a b, merkle_root_hex C [a, b] =
      sha256d_hex C (hexToBytes a ++ hexToBytes b) := by
    intro a b
    rw [merkle_root_hex]
    simp only [if_neg (by simp : ¬ ([a, b] : List String) = [])]
    rw [merkleRounds_eq]
    simp [merkleLevel, merkleRounds_eq]
  refine ⟨rfl, hsingle, hpair, ?_, ?_, ?_⟩
  · intro l hlen
    have hne : l ≠ [] := by
      intro h; rw [h] at hlen; simp at hlen
    have hlevel := merkleLevel_ne_nil C l hne
    rw [merkle_root_hex, merkle_root_hex, if_neg hne, if_neg hlevel]
    rw [merkleRounds_eq, if_neg (by omega)]
  · intro l1 l2 h
    rw [h]
  · intro a b hne
    rw [hpair a b, hpair b a]
    exact hne

/-- Witness for C7: at the concrete instantiation the two orders of a
two-element list produce different roots, and the singleton and empty cases
evaluate as stated. -/
theorem c7_witness :
    merkle_root_hex C0 ["ab", "cd"] ≠ merkle_root_hex C0 ["cd", "ab"] :=
  (c7_merkle_root C0).2.2.2.2.2 "ab" "cd" (by decide)
-- ## Claim C1: characterization of Transaction.verify

theorem verifyInputsLoop_isSome (C : Crypto) (u : UtxoSet) (pre : List Nat) :
    ∀ (ins : List TxInput) (acc : Nat),
    (verifyInputsLoop C u pre ins acc).isSome = true ↔ ∀ tin ∈ ins, inputOk C u pre tin
  | [], acc => by simp [verifyInputsLoop]
  | tin :: rest, acc => by
    rw [verifyInputsLoop]
    cases hl : lookupU u (some tin.txid, tin.vout) with
    | none =>
      simp only [Option.isSome_none, Bool.false_eq_true, false_iff]
      intro hall
      obtain ⟨utxo, hu, -⟩ := hall tin (List.mem_cons_self _ _)
      rw [hl] at hu
      exact Option.noConfusion hu
    | some utxo =>
      show (if tin.signature.getD "" = "" ∨ tin.pubkey.getD "" = "" then none
            else if C.ecdsaVerify (tin.pubkey.getD "") (tin.signature.getD "") pre = false then none
            else if pubkey_to_address C (tin.pubkey.getD "") ≠ utxo.address then none
            else verifyInputsLoop C u pre rest (acc + utxo.amount)).isSome = true ↔ _
      by_cases h1 : tin.signature.getD "" = "" ∨ tin.pubkey.getD "" = ""
      · rw [if_pos h1]
        simp only [Option.isSome_none, Bool.false_eq_true, false_iff]
        intro hall
        obtain ⟨utxo', hu, hs, hp, -⟩ := hall tin (List.mem_cons_self _ _)
        rcases h1 with h1 | h1
        · exact hs h1
        · exact hp h1
      · rw [if_neg h1]
        by_cases h2 : C.ecdsaVerify (tin.pubkey.getD "") (tin.signature.getD "") pre = false
        · rw [if_pos h2]
          simp only [Option.isSome_none, Bool.false_eq_true, false_iff]
          intro hall
          obtain ⟨utxo', hu, -, -, hv, -⟩ := hall tin (List.mem_cons_self _ _)
          rw [hv] at h2
          exact Bool.noConfusion h2
        · rw [if_neg h2]
          by_cases h3 : pubkey_to_address C (tin.pubkey.getD "") ≠ utxo.address
          · rw [if_pos h3]
            simp only [Option.isSome_none, Bool.false_eq_true, false_iff]
            intro hall
            obtain ⟨utxo', hu, -, -, -, ha⟩ := hall tin (List.mem_cons_self _ _)
            rw [hl] at hu
            cases hu
            exact h3 ha
          · rw [if_neg h3]
            rw [verifyInputsLoop_isSome C u pre rest (acc + utxo.amount)]
            push_neg at h1 h3
            constructor
            · intro hrest tin' htin'
              rcases List.mem_cons.mp htin' with h | h
              · cases h
                exact ⟨utxo, hl, h1.1, h1.2, Bool.eq_true_of_ne_false h2, h3⟩
              · exact hrest tin' h
            · intro hall tin' htin'
              exact hall tin' (List.mem_cons_of_mem _ htin')

theorem verifyInputsLoop_val (C : Crypto) (u : UtxoSet) (pre : List Nat) :
    ∀ (ins : List TxInput) (acc T : Nat),
    verifyInputsLoop C u pre ins acc = some T →
    T = acc + (ins.map (refAmount u)).sum
  | [], acc, T => by
    rw [verifyInputsLoop]
    intro h
    cases h
    simp
  | tin :: rest, acc, T => by
    rw [verifyInputsLoop]
    cases hl : lookupU u (some tin.txid, tin.vout) with
    | none =>
      intro h
      exact Option.noConfusion h
    | some utxo =>
      show (if tin.signature.getD "" = "" ∨ tin.pubkey.getD "" = "" then none
            else if C.ecdsaVerify (tin.pubkey.getD "") (tin.signature.getD "") pre = false then none
            else if pubkey_to_address C (tin.pubkey.getD "") ≠ utxo.address then none
            else verifyInputsLoop C u pre rest (acc + utxo.amount)) = some T → _
      by_cases h1 : tin.signature.getD "" = "" ∨ tin.pubkey.getD "" = ""
      · rw [if_pos h1]; intro h; exact Option.noConfusion h
      · rw [if_neg h1]
        by_cases h2 : C.ecdsaVerify (tin.pubkey.getD "") (tin.signature.getD "") pre = false
        · rw [if_pos h2]; intro h; exact Option.noConfusion h
        · rw [if_neg h2]
          by_cases h3 : pubkey_to_address C (tin.pubkey.getD "") ≠ utxo.address
          · rw [if_pos h3]; intro h; exact Option.noConfusion h
          · rw [if_neg h3]
            intro h
            have := verifyInputsLoop_val C u pre rest (acc + utxo.amount) T h
            simp only [List.map_cons, List.sum_cons, refAmount, hl, Option.elim]
            omega

/-- C1: for a non-coinbase transaction, `verify` returns true exactly when
every input's referenced UTXO is present, carries a non-empty signature and
public key, the signature validates over the signature-stripped canonical
preimage, the derived address matches the referenced output's address, the
total output amount does not exceed the total referenced input amount, and
the stored txid equals the recomputed txid; a coinbase transaction verifies
unconditionally.  The function is total (the source's catch-all except
returns False), so it never raises to the caller. -/
theorem c1_verify_characterization (C : Crypto) (tx : Transaction) (u : UtxoSet) :
    tx.verify C u = true ↔
      (tx.coinbase = true ∨
        ((∀ tin ∈ tx.inputs, inputOk C u (strBytes (txJson false tx)) tin) ∧
         totalOutputs tx ≤ (tx.inputs.map (refAmount u)).sum ∧
         tx.txid = some (tx.compute_txid C))) := by
  rw [Transaction.verify]
  by_cases hc : tx.coinbase = true
  · simp [hc]
  · rw [if_neg hc]
    cases h : verifyInputsLoop C u (strBytes (txJson false tx)) tx.inputs 0 with
    | none =>
      simp only [Bool.false_eq_true, false_iff]
      intro hor
      rcases hor with hcb | ⟨hall, -, -⟩
      · exact hc hcb
      · have hs := (verifyInputsLoop_isSome C u (strBytes (txJson false tx)) tx.inputs 0).mpr hall
        rw [h] at hs
        exact Bool.noConfusion hs
    | some T =>
      have hall : ∀ tin ∈ tx.inputs, inputOk C u (strBytes (txJson false tx)) tin :=
        (verifyInputsLoop_isSome C u (strBytes (txJson false tx)) tx.inputs 0).mp
          (by rw [h]; rfl)
      have hT : T = (tx.inputs.map (refAmount u)).sum := by
        have := verifyInputsLoop_val C u (strBytes (txJson false tx)) tx.inputs 0 T h
        omega
      show (if T < totalOutputs tx then false
            else decide (tx.txid = some (tx.compute_txid C))) = true ↔ _
      by_cases hlt : T < totalOutputs tx
      · rw [if_pos hlt]
        simp only [Bool.false_eq_true, false_iff]
        intro hor
        rcases hor with hcb | ⟨-, hle, -⟩
        · exact hc hcb
        · omega
      · rw [if_neg hlt, decide_eq_true_eq]
        constructor
        · intro htxid
          exact Or.inr ⟨hall, by omega, htxid⟩
        · intro hor
          rcases hor with hcb | ⟨-, -, htxid⟩
          · exact absurd hcb hc
          · exact htxid

/-- Witness for C1: applying the characterization at a concrete transaction
and UTXO set whose verification succeeds yields the right-hand side. -/
theorem c1_witness :
    tx1w.coinbase = true ∨
      ((∀ tin ∈ tx1w.inputs, inputOk C0 u1w (strBytes (txJson false tx1w)) tin) ∧
       totalOutputs tx1w ≤ (tx1w.inputs.map (refAmount u1w)).sum ∧
       tx1w.txid = some (tx1w.compute_txid C0)) :=
  (c1_verify_characterization C0 tx1w u1w).mp (by decide)

-- ## Claim C5: validate_block never mutates the ledger state

theorem validate_block_state_eq (C : Crypto) (D R : Nat) (st : BState) (block prev : Block) :
    (Blockchain.validate_block C D R st block prev).2 = st := by
  rw [Blockchain.validate_block]
  repeat' split
  all_goals rfl

/-- C5: running validate_block leaves the ledger state — its chain, its live
UTXO set and its mempool — exactly as it was, whether validation succeeds or
fails: the replay loop mutates only the local copy of the UTXO set. -/
theorem c5_validate_block_frame (C : Crypto) (D R : Nat) (st : BState) (block prev : Block) :
    (Blockchain.validate_block C D R st block prev).2.utxos = st.utxos ∧
    (Blockchain.validate_block C D R st block prev).2.chain = st.chain ∧
    (Blockchain.validate_block C D R st block prev).2.mempool = st.mempool := by
  rw [validate_block_state_eq]
  exact ⟨rfl, rfl, rfl⟩

-- ## Claim C2: characterization of validate_block

/-- C2: validate_block accepts exactly when the block's previousHash equals
the parent's hash, its stored hash is non-empty and carries the configured
number of leading zero characters, the recomputed header hash and Merkle root
equal the stored values, the first transaction is a coinbase whose total
output equals the block reward exactly, and replaying the transactions in
order against a copy of the current UTXO set succeeds (every non-coinbase
transaction verifying and every referenced UTXO present in the evolving
copy).  The claimed "true only if" is the forward direction of this iff. -/
theorem c2_validate_block_characterization (C : Crypto) (D R : Nat) (st : BState)
    (block prev : Block) :
    (Blockchain.validate_block C D R st block prev).1 = true ↔
      (prev.hash = some block.prev_hash ∧
       block.hash.getD "" ≠ "" ∧
       strStarts (block.hash.getD "") (zeroStr D) = true ∧
       block.hash = some (block.compute_hash C) ∧
       block.merkle_root = some (block.compute_merkle C) ∧
       (∃ t0 rest, block.txs = t0 :: rest ∧ t0.coinbase = true ∧ totalOutputs t0 = R) ∧
       (validateReplay C block.txs st.utxos).isSome = true) := by
  rw [Blockchain.validate_block]
  by_cases h1 : prev.hash = some block.prev_hash
  case neg =>
    rw [if_pos h1]
    simp only [Bool.false_eq_true, false_iff]
    rintro ⟨h, -⟩
    exact h1 h
  rw [if_neg (not_not_intro h1)]
  by_cases h2 : block.hash.getD "" = ""
  case pos =>
    rw [if_pos h2]
    simp only [Bool.false_eq_true, false_iff]
    rintro ⟨-, h, -⟩
    exact h h2
  rw [if_neg h2]
  by_cases h3 : strStarts (block.hash.getD "") (zeroStr D) = true
  case neg =>
    rw [if_pos (Bool.eq_false_iff.mpr (fun h => h3 h))]
    simp only [Bool.false_eq_true, false_iff]
    rintro ⟨-, -, h, -⟩
    exact h3 h
  rw [if_neg (by simp [h3])]
  by_cases h4 : block.hash = some (block.compute_hash C)
  case neg =>
    rw [if_pos h4]
    simp only [Bool.false_eq_true, false_iff]
    rintro ⟨-, -, -, h, -⟩
    exact h4 h
  rw [if_neg (not_not_intro h4)]
  by_cases h5 : block.merkle_root = some (block.compute_merkle C)
  case neg =>
    rw [if_pos h5]
    simp only [Bool.false_eq_true, false_iff]
    rintro ⟨-, -, -, -, h, -⟩
    exact h5 h
  rw [if_neg (not_not_intro h5)]
  cases htxs : block.txs with
  | nil =>
    simp only [Bool.false_eq_true, false_iff]
    rintro ⟨-, -, -, -, -, ⟨t0, rest, habs, -⟩, -⟩
    exact List.noConfusion habs
  | cons t0 ts =>
    show (if t0.coinbase = false then (false, st)
          else if ¬ totalOutputs t0 = R then (false, st)
          else match validateReplay C (t0 :: ts) st.utxos with
               | none => (false, st)
               | some _ => (true, st)).1 = true ↔ _
    by_cases h6 : t0.coinbase = true
    case neg =>
      rw [if_pos (Bool.eq_false_iff.mpr (fun h => h6 h))]
      simp only [Bool.false_eq_true, false_iff]
      rintro ⟨-, -, -, -, -, ⟨t0', rest', heq, hcb, -⟩, -⟩
      cases heq
      exact h6 hcb
    rw [if_neg (by simp [h6])]
    by_cases h7 : totalOutputs t0 = R
    case neg =>
      rw [if_pos h7]
      simp only [Bool.false_eq_true, false_iff]
      rintro ⟨-, -, -, -, -, ⟨t0', rest', heq, -, hrw⟩, -⟩
      cases heq
      exact h7 hrw
    rw [if_neg (not_not_intro h7)]
    cases hrep : validateReplay C (t0 :: ts) st.utxos with
    | none =>
      simp only [Bool.false_eq_true, false_iff]
      rintro ⟨-, -, -, -, -, -, hsome⟩
      exact Bool.noConfusion hsome
    | some u' =>
      simp only [true_iff]
      exact ⟨h1, h2, h3, h4, h5, ⟨t0, ts, rfl, h6, h7⟩, rfl⟩

/-- Witness for C2: a state, block and parent failing the parent-hash check
evaluate to a rejection, matching the characterization's right-hand side being
false. -/
theorem c2_witness :
    (Blockchain.validate_block C0 0 50 gst
      { index := 1, prev_hash := "zz", timestamp := 0 }
      { index := 0, prev_hash := "p", timestamp := 0, hash := some "aa" }).1 = false := by
  have h := c2_validate_block_characterization C0 0 50 gst
    { index := 1, prev_hash := "zz", timestamp := 0 }
    { index := 0, prev_hash := "p", timestamp := 0, hash := some "aa" }
  by_contra hne
  have htrue : (Blockchain.validate_block C0 0 50 gst
      { index := 1, prev_hash := "zz", timestamp := 0 }
      { index := 0, prev_hash := "p", timestamp := 0, hash := some "aa" }).1 = true := by
    cases hb : (Blockchain.validate_block C0 0 50 gst
      { index := 1, prev_hash := "zz", timestamp := 0 }
      { index := 0, prev_hash := "p", timestamp := 0, hash := some "aa" }).1
    · exact absurd hb hne
    · rfl
  obtain ⟨hph, -⟩ := h.mp htrue
  exact absurd hph (by decide)

-- ## Claim C6: coinbase shape (corrected — the genesis coinbase has no outputs)

theorem mineBlockGo_fields (C : Crypto) (D : Nat) :
    ∀ (fuel : Nat) (b b' : Block), mineBlockGo C D fuel b = some b' →
      b'.txs = b.txs ∧ b'.index = b.index ∧ b'.merkle_root = b.merkle_root
  | 0, b, b' => by
    intro h
    exact Option.noConfusion h
  | fuel + 1, b, b' => by
    rw [mineBlockGo]
    by_cases hs : strStarts (b.compute_hash C) (zeroStr D) = true
    · rw [if_pos hs]
      intro h
      cases h
      exact ⟨rfl, rfl, rfl⟩
    · rw [if_neg hs]
      intro h
      exact mineBlockGo_fields C D fuel { b with nonce := b.nonce + 1 } b' h

theorem mine_block_txs (C : Crypto) (D fuel : Nat) (b b' : Block)
    (h : mine_block C D fuel b = some b') : b'.txs = b.txs := by
  rw [mine_block] at h
  exact (mineBlockGo_fields C D fuel _ b' h).1

/-- C6 counterexample: the genesis coinbase produced by genesis initialization
(at difficulty 0, where one unit of proof-of-work fuel suffices) has an empty
output list, so it is false that every system-created coinbase has exactly
one output carrying the block reward. -/
theorem c6_counterexample :
    ¬ (∀ st : BState, Blockchain.init_genesis C0 0 1 0 0 "genesis" = some st →
        st.chain.all (fun b => b.txs.all (fun t =>
          !t.coinbase || (decide (t.inputs = []) && decide (t.outputs.length = 1)))) = true) :=
  fun h => absurd (h gst rfl) (by decide)

/-- C6 amended: every coinbase built by make_coinbase — the constructor mining
uses with the fixed block reward — has an empty input list and exactly one
output carrying the requested amount; the genesis initialization's coinbase
instead has an empty input list and an *empty* output list (it mints nothing),
and genesis commits with an empty UTXO set and mempool. -/
theorem c6_amended_coinbase_shape :
    (∀ (C : Crypto) (ts : Int) (addr : String) (amt : Nat),
      (make_coinbase C ts addr amt).inputs = [] ∧
      (make_coinbase C ts addr amt).outputs = [{ amount := amt, address := addr }] ∧
      (make_coinbase C ts addr amt).coinbase = true) ∧
    (∀ (C : Crypto) (D fuel : Nat) (ts1 ts2 : Int) (msg : String) (st : BState),
      Blockchain.init_genesis C D fuel ts1 ts2 msg = some st →
      ∃ b, st.chain = [b] ∧ ∃ t, b.txs = [t] ∧ t.coinbase = true ∧
        t.inputs = [] ∧ t.outputs = [] ∧ st.utxos = [] ∧ st.mempool = []) := by
  constructor
  · intro C ts addr amt
    exact ⟨rfl, rfl, rfl⟩
  · intro C D fuel ts1 ts2 msg st h
    rw [Blockchain.init_genesis] at h
    rcases Option.map_eq_some'.mp h with ⟨mined, hmine, hst⟩
    refine ⟨mined, ?_, ?_⟩
    · rw [← hst]
    · have htxs := mine_block_txs C D fuel _ mined hmine
      refine ⟨_, htxs, rfl, rfl, rfl, ?_, ?_⟩
      · rw [← hst]
      · rw [← hst]

/-- Witness for C6 (amended): the genesis state at difficulty 0 satisfies the
amended description. -/
theorem c6_witness :
    ∃ b, gst.chain = [b] ∧ ∃ t, b.txs = [t] ∧ t.coinbase = true ∧
      t.inputs = [] ∧ t.outputs = [] ∧ gst.utxos = [] ∧ gst.mempool = [] :=
  c6_amended_coinbase_shape.2 C0 0 1 0 0 "genesis" gst rfl

-- ## Claim C3: transaction admission

theorem add_transaction_cases (C : Crypto) (st : BState) (tx : Transaction) :
    Blockchain.add_transaction C st tx =
      (true, { st with mempool := st.mempool ++ [assignTxid C tx] }) ∨
    Blockchain.add_transaction C st tx = (false, st) := by
  simp only [Blockchain.add_transaction]
  split_ifs
  · exact Or.inr rfl
  · exact Or.inr rfl
  · exact Or.inr rfl
  · exact Or.inr rfl
  · exact Or.inl rfl

theorem add_transaction_true_iff (C : Crypto) (st : BState) (tx : Transaction) :
    (Blockchain.add_transaction C st tx).1 = true ↔
      ((assignTxid C tx).coinbase = false ∧
       (assignTxid C tx).verify C st.utxos = true ∧
       (∀ t ∈ st.mempool, t.txid ≠ (assignTxid C tx).txid) ∧
       (∀ i ∈ (assignTxid C tx).inputs, ∀ t ∈ st.mempool, ∀ j ∈ t.inputs,
         ¬ (j.txid = i.txid ∧ j.vout = i.vout))) := by
  simp only [Blockchain.add_transaction]
  split_ifs with h1 h2 h3 h4
  · simp only [Bool.false_eq_true, false_iff]
    rintro ⟨hcb, -⟩
    rw [h1] at hcb
    exact Bool.noConfusion hcb
  · simp only [Bool.false_eq_true, false_iff]
    rintro ⟨-, hv, -⟩
    rw [hv] at h2
    exact Bool.noConfusion h2
  · simp only [Bool.false_eq_true, false_iff]
    rintro ⟨-, -, hdup, -⟩
    rw [List.any_eq_true] at h3
    obtain ⟨t, htmem, hteq⟩ := h3
    exact hdup t htmem (by simpa using hteq)
  · simp only [Bool.false_eq_true, false_iff]
    rintro ⟨-, -, -, hclash⟩
    rw [List.any_eq_true] at h4
    obtain ⟨i, himem, hrest⟩ := h4
    rw [List.any_eq_true] at hrest
    obtain ⟨t, htmem, hrest2⟩ := hrest
    rw [List.any_eq_true] at hrest2
    obtain ⟨j, hjmem, hj⟩ := hrest2
    exact hclash i himem t htmem j hjmem (by simpa using hj)
  · simp only [true_iff]
    refine ⟨Bool.eq_false_iff.mpr h1, Bool.eq_true_of_ne_false h2, ?_, ?_⟩
    · intro t htmem hteq
      apply h3
      rw [List.any_eq_true]
      exact ⟨t, htmem, by simpa using hteq⟩
    · intro i himem t htmem j hjmem hj
      apply h4
      rw [List.any_eq_true]
      refine ⟨i, himem, ?_⟩
      rw [List.any_eq_true]
      refine ⟨t, htmem, ?_⟩
      rw [List.any_eq_true]
      exact ⟨j, hjmem, by simpa using hj⟩

/-- C3: admission rejects — returning false with the state unchanged — exactly
when the transaction is coinbase, or fails verify against the current UTXO
set, or its txid is already pending, or one of its inputs is already
referenced by a pending transaction; otherwise the transaction (with txid
assigned if absent) is appended to the mempool.  Consequently a transaction
that has been admitted is rejected when submitted again. -/
theorem c3_add_transaction (C : Crypto) (st : BState) (tx : Transaction) :
    (Blockchain.add_transaction C st tx =
       (true, { st with mempool := st.mempool ++ [assignTxid C tx] }) ∨
     Blockchain.add_transaction C st tx = (false, st)) ∧
    ((Blockchain.add_transaction C st tx).1 = true ↔
      ((assignTxid C tx).coinbase = false ∧
       (assignTxid C tx).verify C st.utxos = true ∧
       (∀ t ∈ st.mempool, t.txid ≠ (assignTxid C tx).txid) ∧
       (∀ i ∈ (assignTxid C tx).inputs, ∀ t ∈ st.mempool, ∀ j ∈ t.inputs,
         ¬ (j.txid = i.txid ∧ j.vout = i.vout)))) ∧
    (∀ st', Blockchain.add_transaction C st tx = (true, st') →
      (Blockchain.add_transaction C st' tx).1 = false) := by
  refine ⟨add_transaction_cases C st tx, add_transaction_true_iff C st tx, ?_⟩
  intro st' hadd
  have hst' : st' = { st with mempool := st.mempool ++ [assignTxid C tx] } := by
    rcases add_transaction_cases C st tx with hc | hc
    · rw [hadd] at hc
      have := congrArg Prod.snd hc
      exact this
    · rw [hadd] at hc
      exact absurd hc (by simp)
  cases hres : (Blockchain.add_transaction C st' tx).1
  · rfl
  · exfalso
    obtain ⟨-, -, hdup, -⟩ := (add_transaction_true_iff C st' tx).mp hres
    refine hdup (assignTxid C tx) ?_ rfl
    rw [hst']
    exact List.mem_append_right _ (List.mem_singleton.mpr rfl)

/-- Witness for C3: a concrete transaction is admitted once and rejected on
resubmission. -/
theorem c3_witness :
    (Blockchain.add_transaction C0
      ((Blockchain.add_transaction C0 st3w tx1w).2) tx1w).1 = false :=
  (c3_add_transaction C0 st3w tx1w).2.2 ((Blockchain.add_transaction C0 st3w tx1w).2) rfl

-- ## Claim C4: external block acceptance

theorem delRefsPartial_of_checked :
    ∀ (ins : List TxInput) (u u' : UtxoSet), delRefsChecked u ins = some u' →
      delRefsPartial u ins = (true, u')
  | [], u, u' => by
    rw [delRefsChecked, delRefsPartial]
    intro h
    cases h
    rfl
  | i :: rest, u, u' => by
    rw [delRefsChecked, delRefsPartial]
    by_cases hm : (lookupU u (some i.txid, i.vout)).isSome = true
    · rw [if_pos hm, if_pos hm]
      exact delRefsPartial_of_checked rest _ u'
    · rw [if_neg hm, if_neg hm]
      intro h
      exact Option.noConfusion h

theorem commitTxs_mempool (C : Crypto) :
    ∀ (txs : List Transaction) (u : UtxoSet) (mp : List Transaction),
      (commitTxs C txs (u, mp)).2 =
        mp.filter (fun t => txs.all (fun tx => decide (t.txid ≠ tx.txid)))
  | [], u, mp => by
    rw [commitTxs]
    simp
  | tx :: rest, u, mp => by
    rw [commitTxs]
    rw [commitTxs_mempool C rest _ _]
    rw [List.filter_filter]
    apply List.filter_congr
    intro t htmem
    simp only [List.all_cons]
    rw [Bool.and_comm]

theorem commitTxs_utxos (C : Crypto) :
    ∀ (txs : List Transaction) (u u' : UtxoSet) (mp : List Transaction),
      validateReplay C txs u = some u' → (commitTxs C txs (u, mp)).1 = u'
  | [], u, u', mp => by
    rw [validateReplay, commitTxs]
    intro h
    cases h
    rfl
  | tx :: rest, u, u', mp => by
    rw [validateReplay, commitTxs]
    by_cases hcb : tx.coinbase = true
    · rw [if_neg (by simp [hcb]), if_pos hcb]
      intro h
      have happ : Blockchain.apply_tx C u tx = (true, addOutputs u tx) := by
        rw [Blockchain.apply_tx, if_pos hcb]
      rw [happ]
      exact commitTxs_utxos C rest _ u' _ h
    · have hcb' : tx.coinbase = false := Bool.eq_false_iff.mpr hcb
      by_cases hv : tx.verify C u = true
      · rw [if_neg (by simp [hv]), if_neg hcb]
        cases hdel : delRefsChecked u tx.inputs with
        | none =>
          intro h
          exact Option.noConfusion h
        | some u1 =>
          intro h
          have happ : Blockchain.apply_tx C u tx = (true, addOutputs u1 tx) := by
            rw [Blockchain.apply_tx, if_neg (by simp [hcb']), if_neg (by simp [hv])]
            rw [delRefsPartial_of_checked tx.inputs u u1 hdel]
          rw [happ]
          exact commitTxs_utxos C rest _ u' _ h
      · have hv' : tx.verify C u = false := Bool.eq_false_iff.mpr hv
        rw [if_pos ⟨hcb', hv'⟩]
        intro h
        exact Option.noConfusion h

/-- C4: a block whose index is not the current chain length is rejected with
the state untouched, whatever the block's contents; a block with the next
index that passes validate_block against the current tip is committed — its
transactions' replay result becomes the UTXO set, its txids are pruned from
the mempool, and the block is appended to the chain. -/
theorem c4_try_add_block (C : Crypto) (D R : Nat) (st : BState) (block : Block) :
    (block.index ≠ st.chain.length →
      Blockchain.try_add_block C D R st block = .ok (false, st)) ∧
    (∀ tip u', block.index = st.chain.length →
      st.chain.getLast? = some tip →
      (Blockchain.validate_block C D R st block tip).1 = true →
      validateReplay C block.txs st.utxos = some u' →
      Blockchain.try_add_block C D R st block =
        .ok (true, { chain := st.chain ++ [block], utxos := u',
                     mempool := st.mempool.filter
                       (fun t => block.txs.all (fun tx => decide (t.txid ≠ tx.txid))) })) := by
  constructor
  · intro hne
    rw [Blockchain.try_add_block, if_pos hne]
  · intro tip u' hidx hlast hval hrep
    have hv : Blockchain.validate_block C D R st block tip = (true, st) :=
      Prod.ext_iff.mpr ⟨hval, validate_block_state_eq C D R st block tip⟩
    have hc : commitTxs C block.txs (st.utxos, st.mempool) =
        (u', st.mempool.filter
          (fun t => block.txs.all (fun tx => decide (t.txid ≠ tx.txid)))) :=
      Prod.ext_iff.mpr ⟨commitTxs_utxos C block.txs st.utxos u' st.mempool hrep,
        commitTxs_mempool C block.txs st.utxos st.mempool⟩
    simp only [Blockchain.try_add_block, if_neg (not_not_intro hidx), hlast, hv,
      if_neg (show ¬ (true = false) by simp), hc]

/-- Witness for C4: a mined difficulty-0 successor of the genesis tip is
accepted and committed exactly as the theorem states. -/
theorem c4_witness :
    Blockchain.try_add_block C0 0 50 gst b4ok =
      .ok (true, { chain := gst.chain ++ [b4ok], utxos := u4w,
                   mempool := gst.mempool.filter
                     (fun t => b4ok.txs.all (fun tx => decide (t.txid ≠ tx.txid))) }) :=
  (c4_try_add_block C0 0 50 gst b4ok).2 b4tip u4w rfl rfl rfl rfl

-- ## Claim C10: duplicate input references crash mining

/-- C10: the transaction tx10 references the same UTXO twice in its input
list; verify accepts it (the 10-unit reference is summed once per occurrence,
covering the 15-unit output), add_transaction admits it into the mempool (the
double-spend admission check only inspects other pending transactions), and a
subsequent mine fails with the uncaught KeyError raised while deleting the
duplicated reference from the temporary UTXO projection a second time, instead
of returning a block or the mining-failure signal. -/
theorem c10_duplicate_input_mine_keyerror :
    tx10.inputs = [dupIn10, dupIn10] ∧
    tx10.coinbase = false ∧
    tx10.verify C0 st10.utxos = true ∧
    Blockchain.add_transaction C0 st10 tx10 = (true, { st10 with mempool := [tx10] }) ∧
    Blockchain.mine C0 0 50 1 0 0 { st10 with mempool := [tx10] } "miner" =
      .error .keyError :=
  ⟨rfl, rfl, rfl, rfl, rfl⟩


-- ## Claim C8: build_simple_tx

theorem sumA_cons (k : UtxoKey) (o : TxOutput) (l : List (UtxoKey × TxOutput)) :
    sumA ((k, o) :: l) = o.amount + sumA l := by
  simp [sumA]

theorem sumA_nil : sumA [] = 0 := rfl

theorem collectLoop_fst_lt (amount : Nat) :
    ∀ (l : List (UtxoKey × TxOutput)) (acc : Nat) (ins : List TxInput),
      ((collectLoop amount l acc ins).1 < amount ↔ acc + sumA l < amount)
  | [], acc, ins => by
    rw [collectLoop]
    simp [sumA]
  | (k0, out) :: rest, acc, ins => by
    rw [collectLoop, sumA_cons]
    by_cases hcov : amount ≤ acc + out.amount
    · rw [if_pos hcov]
      constructor
      · intro h
        omega
      · intro h
        omega
    · rw [if_neg hcov]
      rw [collectLoop_fst_lt amount rest (acc + out.amount) _]
      omega

theorem collectLoop_structure (amount : Nat) :
    ∀ (l : List (UtxoKey × TxOutput)) (acc : Nat) (ins : List TxInput),
      ∃ k, k ≤ l.length ∧
        collectLoop amount l acc ins = (acc + sumA (l.take k), ins ++ (l.take k).map mkIn) ∧
        (∀ j, 0 < j → j < k → acc + sumA (l.take j) < amount) ∧
        (k < l.length → amount ≤ acc + sumA (l.take k))
  | [], acc, ins => by
    refine ⟨0, Nat.le_refl _, ?_, ?_, ?_⟩
    · rw [collectLoop]
      simp [sumA]
    · intro j hj hjk
      omega
    · intro h
      simp at h
  | (k0, out) :: rest, acc, ins => by
    rw [collectLoop]
    by_cases hcov : amount ≤ acc + out.amount
    · rw [if_pos hcov]
      refine ⟨1, by simp, ?_, ?_, ?_⟩
      · show (acc + out.amount, ins ++ [mkIn (k0, out)]) =
          (acc + sumA (((k0, out) :: rest).take 1), ins ++ (((k0, out) :: rest).take 1).map mkIn)
        simp [sumA_cons, sumA]
      · intro j hj hjk
        omega
      · intro h
        simp only [List.take_succ_cons, List.take_zero, sumA_cons, sumA_nil]
        omega
    · rw [if_neg hcov]
      obtain ⟨k', hk'len, heq, hmin, hcov'⟩ :=
        collectLoop_structure amount rest (acc + out.amount) (ins ++ [mkIn (k0, out)])
      refine ⟨k' + 1, by simpa using hk'len, ?_, ?_, ?_⟩
      · show collectLoop amount rest (acc + out.amount) (ins ++ [mkIn (k0, out)]) = _
        rw [heq]
        simp only [List.take_succ_cons, List.map_cons, sumA_cons]
        refine Prod.ext_iff.mpr ⟨?_, ?_⟩
        · show acc + out.amount + sumA (rest.take k') = acc + (out.amount + sumA (rest.take k'))
          omega
        · show ins ++ [mkIn (k0, out)] ++ (rest.take k').map mkIn =
            ins ++ (mkIn (k0, out) :: (rest.take k').map mkIn)
          simp
      · intro j hj hjk
        cases j with
        | zero => omega
        | succ j' =>
          simp only [List.take_succ_cons, sumA_cons]
          rcases Nat.eq_zero_or_pos j' with hz | hpos
          · subst hz
            simp only [List.take_zero, sumA_nil]
            omega
          · have := hmin j' hpos (by omega)
            omega
      · intro hlt
        simp only [List.take_succ_cons, sumA_cons]
        have := hcov' (by simpa using hlt)
        omega

theorem signCheckLoop_err (from_addr : String) (u : UtxoSet) :
    ∀ (ins : List TxInput) (e : TxBuildErr), signCheckLoop from_addr u ins = .error e →
      e = .utxoNotFound ∨ e = .notOwned
  | [], e => by
    rw [signCheckLoop]
    intro h
    exact Except.noConfusion h
  | tin :: rest, e => by
    rw [signCheckLoop]
    cases lookupU u (some tin.txid, tin.vout) with
    | none =>
      intro h
      cases h
      exact Or.inl rfl
    | some utxo =>
      show (if utxo.address ≠ from_addr then Except.error TxBuildErr.notOwned
            else signCheckLoop from_addr u rest) = Except.error e → _
      by_cases ha : utxo.address ≠ from_addr
      · rw [if_pos ha]
        intro h
        cases h
        exact Or.inr rfl
      · rw [if_neg ha]
        exact signCheckLoop_err from_addr u rest e

theorem sign_inputs_err (C : Crypto) (tx : Transaction) (priv : String) (u : UtxoSet)
    (e : TxBuildErr) (h : tx.sign_inputs C priv u = .error e) :
    e = .utxoNotFound ∨ e = .notOwned := by
  rw [Transaction.sign_inputs] at h
  by_cases hcb : tx.coinbase = true
  · rw [if_pos hcb] at h
    exact Except.noConfusion h
  · rw [if_neg hcb] at h
    cases hchk : signCheckLoop (pubkey_to_address C (C.pubOf priv)) u tx.inputs with
    | error e' =>
      rw [hchk] at h
      cases h
      exact signCheckLoop_err _ u tx.inputs e hchk
    | ok a =>
      rw [hchk] at h
      exact Except.noConfusion h

theorem sign_inputs_shape (C : Crypto) (tx tx' : Transaction) (priv : String) (u : UtxoSet)
    (h : tx.sign_inputs C priv u = .ok tx') :
    tx'.outputs = tx.outputs ∧ tx'.inputs.map refOf = tx.inputs.map refOf := by
  rw [Transaction.sign_inputs] at h
  by_cases hcb : tx.coinbase = true
  · rw [if_pos hcb] at h
    cases h
    exact ⟨rfl, rfl⟩
  · rw [if_neg hcb] at h
    cases hchk : signCheckLoop (pubkey_to_address C (C.pubOf priv)) u tx.inputs with
    | error e' =>
      rw [hchk] at h
      exact Except.noConfusion h
    | ok a =>
      rw [hchk] at h
      cases h
      refine ⟨rfl, ?_⟩
      show (signedInputs C priv tx).map refOf = tx.inputs.map refOf
      rw [signedInputs, List.map_map]
      apply List.map_congr_left
      intro tin htin
      rfl

/-- C8: the transfer builder fails with the insufficient-funds error exactly
when the owner's total available value is below the requested amount; on
success, the inputs are the shortest in-order prefix of the owner's UTXOs
whose accumulated amount covers the request (first-fit, checked after each
selection), the first output pays the requested amount to the recipient, and
a change output for the remainder — to the change address, defaulting to the
owner's address — is present exactly when the selected total strictly
exceeds the request. -/
theorem c8_build_simple_tx (C : Crypto) (ts : Int) (utxos : UtxoSet)
    (from_priv from_pub to_addr : String) (amount : Nat) (change_addr : Option String) :
    (build_simple_tx C ts utxos from_priv from_pub to_addr amount change_addr =
        .error .insufficientFunds ↔
      sumA (ownerUtxos C utxos from_pub) < amount) ∧
    (∀ tx, build_simple_tx C ts utxos from_priv from_pub to_addr amount change_addr = .ok tx →
      ∃ k, k ≤ (ownerUtxos C utxos from_pub).length ∧
        tx.inputs.map refOf = (((ownerUtxos C utxos from_pub).take k).map mkIn).map refOf ∧
        tx.outputs = { amount := amount, address := to_addr } ::
          (if amount < sumA ((ownerUtxos C utxos from_pub).take k) then
            [{ amount := sumA ((ownerUtxos C utxos from_pub).take k) - amount,
               address := if change_addr.getD "" = "" then pubkey_to_address C from_pub
                          else change_addr.getD "" }]
           else []) ∧
        amount ≤ sumA ((ownerUtxos C utxos from_pub).take k) ∧
        (0 < amount → ∀ j < k, sumA ((ownerUtxos C utxos from_pub).take j) < amount)) := by
  obtain ⟨k, hklen, heq, hmin, hcovk⟩ :=
    collectLoop_structure amount (ownerUtxos C utxos from_pub) 0 []
  have heq1 : (collectLoop amount (ownerUtxos C utxos from_pub) 0 []).1 =
      sumA ((ownerUtxos C utxos from_pub).take k) := by
    rw [heq]
    simp
  have heq2 : (collectLoop amount (ownerUtxos C utxos from_pub) 0 []).2 =
      ((ownerUtxos C utxos from_pub).take k).map mkIn := by
    rw [heq]
    simp
  constructor
  · constructor
    · intro hb
      by_cases hlt : (collectLoop amount (ownerUtxos C utxos from_pub) 0 []).1 < amount
      · have h0 := (collectLoop_fst_lt amount (ownerUtxos C utxos from_pub) 0 []).mp hlt
        omega
      · rw [build_simple_tx, if_neg hlt] at hb
        rcases sign_inputs_err C _ from_priv utxos _ hb with h | h
        · exact TxBuildErr.noConfusion h
        · exact TxBuildErr.noConfusion h
    · intro hlt
      have h1 : (collectLoop amount (ownerUtxos C utxos from_pub) 0 []).1 < amount :=
        (collectLoop_fst_lt amount (ownerUtxos C utxos from_pub) 0 []).mpr (by omega)
      rw [build_simple_tx, if_pos h1]
  · intro tx htx
    rw [build_simple_tx] at htx
    by_cases hlt : (collectLoop amount (ownerUtxos C utxos from_pub) 0 []).1 < amount
    · rw [if_pos hlt] at htx
      exact Except.noConfusion htx
    · rw [if_neg hlt] at htx
      obtain ⟨houts, hins⟩ := sign_inputs_shape C _ tx from_priv utxos htx
      refine ⟨k, hklen, ?_, ?_, ?_, ?_⟩
      · rw [hins]
        show ((collectLoop amount (ownerUtxos C utxos from_pub) 0 []).2).map refOf = _
        rw [heq2]
      · rw [houts]
        show ({ amount := amount, address := to_addr } : TxOutput) ::
            (if 0 < (collectLoop amount (ownerUtxos C utxos from_pub) 0 []).1 - amount then
              [({ amount := (collectLoop amount (ownerUtxos C utxos from_pub) 0 []).1 - amount,
                  address := if change_addr.getD "" = "" then pubkey_to_address C from_pub
                             else change_addr.getD "" } : TxOutput)]
             else []) = _
        rw [heq1]
        by_cases hc : amount < sumA ((ownerUtxos C utxos from_pub).take k)
        · rw [if_pos (by omega), if_pos hc]
        · rw [if_neg (by omega), if_neg hc]
      · rw [heq1] at hlt
        omega
      · intro hpos j hj
        rcases Nat.eq_zero_or_pos j with hz | hjpos
        · subst hz
          simpa [sumA_nil] using hpos
        · have := hmin j hjpos hj
          omega

/-- Witness for C8: the 9-unit transfer from the owner of two UTXOs worth 7
and 6 selects both in order and returns a 4-unit change output. -/
theorem c8_witness :
    ∃ k, k ≤ (ownerUtxos C0 u8w "pp").length ∧
      tx8w.inputs.map refOf = (((ownerUtxos C0 u8w "pp").take k).map mkIn).map refOf ∧
      tx8w.outputs = { amount := 9, address := "bob" } ::
        (if 9 < sumA ((ownerUtxos C0 u8w "pp").take k) then
          [{ amount := sumA ((ownerUtxos C0 u8w "pp").take k) - 9,
             address := if (none : Option String).getD "" = "" then pubkey_to_address C0 "pp"
                        else (none : Option String).getD "" }]
         else []) ∧
      9 ≤ sumA ((ownerUtxos C0 u8w "pp").take k) ∧
      (0 < 9 → ∀ j < k, sumA ((ownerUtxos C0 u8w "pp").take j) < 9) :=
  (c8_build_simple_tx C0 0 u8w "pp" "pp" "bob" 9 none).2 tx8w rfl

-- ## Claim C9: persistence round trip

theorem hexDigit_toNat (r : Nat) (h : r < 10) : (hexDigit r).toNat = 48 + r := by
  interval_cases r <;> decide

theorem natDigitsRev_all_digits :
    ∀ n : Nat, ∀ c ∈ natDigitsRev n, 48 ≤ c.toNat ∧ c.toNat ≤ 57 := by
  intro n
  induction n using Nat.strong_induction_on with
  | _ n ih =>
    intro c hc
    rw [natDigitsRev_eq] at hc
    by_cases hn : n = 0
    · rw [if_pos hn] at hc
      exact absurd hc (List.not_mem_nil c)
    · rw [if_neg hn] at hc
      rcases List.mem_cons.mp hc with hhead | htail
      · subst hhead
        have h10 : n % 10 < 10 := Nat.mod_lt n (by omega)
        rw [hexDigit_toNat (n % 10) h10]
        omega
      · exact ih (n / 10) (Nat.div_lt_self (by omega) (by omega)) c htail

theorem digitVal_hexDigit (r : Nat) (h : r < 10) : digitVal (hexDigit r) = r := by
  rw [digitVal, hexDigit_toNat r h]
  omega

theorem natDigitsRev_foldr (g : Char → Nat → Nat)
    (hg : ∀ c a, g c a = 10 * a + digitVal c) :
    ∀ n : Nat, (natDigitsRev n).foldr g 0 = n := by
  intro n
  induction n using Nat.strong_induction_on with
  | _ n ih =>
    rw [natDigitsRev_eq]
    by_cases hn : n = 0
    · rw [if_pos hn, hn]
      rfl
    · rw [if_neg hn]
      rw [List.foldr_cons, ih (n / 10) (Nat.div_lt_self (by omega) (by omega))]
      rw [hg, digitVal_hexDigit (n % 10) (Nat.mod_lt n (by omega))]
      omega

theorem pyInt_natToStr (n : Nat) : pyIntChars (natToStr n).toList = some n := by
  by_cases hn : n = 0
  · subst hn
    decide
  · rw [natToStr, if_neg hn]
    have htl : (String.mk (natDigitsRev n).reverse).toList = (natDigitsRev n).reverse := rfl
    rw [htl, pyIntChars]
    have hne : natDigitsRev n ≠ [] := by
      rw [natDigitsRev_eq, if_neg hn]
      exact List.cons_ne_nil _ _
    rw [if_pos ?side]
    case side =>
      constructor
      · simpa using hne
      · rw [List.all_eq_true]
        intro c hc
        have := natDigitsRev_all_digits n c (List.mem_reverse.mp hc)
        simpa using this
    rw [List.foldl_reverse]
    rw [natDigitsRev_foldr (fun c a => 10 * a + digitVal c) (fun c a => rfl) n]

theorem colon_toNat : (':' : Char).toNat = 58 := rfl

theorem natToStr_no_colon (n : Nat) : ':' ∉ (natToStr n).toList := by
  by_cases hn : n = 0
  · subst hn
    decide
  · rw [natToStr, if_neg hn]
    intro hc
    have hmem : (':' : Char) ∈ natDigitsRev n := List.mem_reverse.mp hc
    have := (natDigitsRev_all_digits n ':' hmem).2
    rw [colon_toNat] at this
    omega

theorem splitColon_no_colon : ∀ cs : List Char, ':' ∉ cs → splitColon cs = [cs]
  | [] => by
    intro h
    rfl
  | c :: rest => by
    intro h
    rw [splitColon]
    have hc : ¬ c = ':' := fun hc => h (hc ▸ List.mem_cons_self c rest)
    rw [if_neg hc]
    rw [splitColon_no_colon rest (fun hm => h (List.mem_cons_of_mem c hm))]
    rfl

theorem splitColon_append : ∀ (xs ys : List Char), ':' ∉ xs →
    splitColon (xs ++ ':' :: ys) = xs :: splitColon ys
  | [], ys => by
    intro h
    rw [List.nil_append, splitColon, if_pos rfl]
  | x :: xs, ys => by
    intro h
    rw [List.cons_append, splitColon]
    have hx : ¬ x = ':' := fun hx => h (hx ▸ List.mem_cons_self x xs)
    rw [if_neg hx, splitColon_append xs ys (fun hm => h (List.mem_cons_of_mem x hm))]
    rfl

theorem parse_utxoKeyStr (s : String) (v : Nat) (hs : ':' ∉ s.toList) :
    parseUtxoKey (utxoKeyStr (some s, v)) = (some s, v) := by
  rw [parseUtxoKey]
  have htl : (utxoKeyStr (some s, v)).toList = s.toList ++ ':' :: (natToStr v).toList := rfl
  rw [htl, splitColon_append s.toList (natToStr v).toList hs,
    splitColon_no_colon (natToStr v).toList (natToStr_no_colon v)]
  have h1 : (s.toList :: [(natToStr v).toList]).headI = s.toList := rfl
  have h2 : (s.toList :: [(natToStr v).toList]).getD 1 [] = (natToStr v).toList := rfl
  rw [h1, h2, pyInt_natToStr v]
  rfl

theorem loadTx_persistTx (t : Transaction) : loadTx (persistTx t) = t := rfl

theorem loadBlock_persistBlock (b : Block) : loadBlock (persistBlock b) = b := by
  rw [loadBlock, persistBlock]
  cases b with
  | mk index prev_hash timestamp nonce txs merkle_root hash =>
    simp only [Block.mk.injEq, true_and, and_true]
    calc List.map loadTx (List.map persistTx txs)
        = List.map (loadTx ∘ persistTx) txs := by rw [List.map_map]
      _ = List.map id txs := List.map_congr_left (fun t _ => loadTx_persistTx t)
      _ = txs := List.map_id txs

/-- C9: persisting the chain, UTXO set and mempool to their three documents
and loading a new ledger from them reproduces the chain, UTXO set and mempool
field for field, signatures and public keys included — for every state whose
UTXO keys are in the colon-free (hex txid) regime that the "txid:vout" key
encoding inverts. -/
theorem c9_persist_load_roundtrip (st : BState)
    (hkeys : ∀ kv ∈ st.utxos, ∃ s, kv.1.1 = some s ∧ ':' ∉ s.toList) :
    Blockchain.load (Blockchain.persist st) = st := by
  rw [Blockchain.load, Blockchain.persist]
  cases st with
  | mk chain utxos mempool =>
    simp only [BState.mk.injEq]
    have hcong : ∀ kv ∈ utxos,
        (parseUtxoKey (utxoKeyStr kv.1),
          ({ amount := kv.2.amount, address := kv.2.address } : TxOutput)) = kv := by
      intro kv hkv
      obtain ⟨s, hs1, hs2⟩ := hkeys kv hkv
      obtain ⟨⟨k1, k2⟩, val⟩ := kv
      simp only at hs1
      subst hs1
      rw [parse_utxoKeyStr s k2 hs2]
    refine ⟨?_, ?_, ?_⟩
    · rw [List.map_map]
      exact (List.map_congr_left (fun b _ => loadBlock_persistBlock b)).trans
        (List.map_id chain)
    · rw [List.map_map]
      exact (List.map_congr_left (fun kv hkv => hcong kv hkv)).trans (List.map_id utxos)
    · rw [Option.getD_some, List.map_map]
      exact (List.map_congr_left (fun t _ => loadTx_persistTx t)).trans
        (List.map_id mempool)

/-- Witness for C9: the populated state round-trips through its three
documents unchanged. -/
theorem c9_witness : Blockchain.load (Blockchain.persist st9w) = st9w :=
  c9_persist_load_roundtrip st9w (by
    intro kv hkv
    simp only [u1w, st9w, List.mem_singleton] at hkv
    subst hkv
    exact ⟨"aa", rfl, by decide⟩)
